import Mathlib

/-!
Verification of the explicit diffusion stepper demonstrated in
`fault_scarp/landlab-fault-scarp-unexpanded.ipynb`.

The notebook's time loop (cell-34) is

  for i in range(25):
      g = mg.calc_grad_at_link(z)
      qs[mg.active_links] = -D * g[mg.active_links]
      dqsdx = mg.calc_flux_div_at_node(qs)
      dzdt = -dqsdx
      z[mg.core_nodes] += dzdt[mg.core_nodes] * dt

The grid primitives (`calc_grad_at_link`, `active_links`,
`calc_flux_div_at_node`, `core_nodes`) belong to the external landlab
library and are not part of this repository; they are modelled here from
the specification's algorithm description.  Fields are lists of rationals
indexed by node id (row-major, node 0 at the origin, ids increasing with
x then y); links are tail/head pairs oriented toward increasing x
(horizontal links) or increasing y (vertical links), as the notebook
states.
-/

/-- Boundary classification of a grid node: interior ("core"), open
(fixed-value) boundary, or closed boundary. -/
inductive NodeStatus where
  | core : NodeStatus
  | fixedValue : NodeStatus
  | closed : NodeStatus
deriving DecidableEq, Repr

/-- A uniform raster model grid: `rows × cols` nodes with spacing `dx`
and a per-node boundary classification. -/
structure RasterGrid where
  rows : ℕ
  cols : ℕ
  dx : ℚ
  status : List NodeStatus

namespace RasterGrid

/-- Number of nodes of the grid. -/
def N (g : RasterGrid) : ℕ := g.rows * g.cols

/-- Row-major node id of the node in row `r`, column `c`. -/
def nodeId (g : RasterGrid) (r c : ℕ) : ℕ := r * g.cols + c

/-- The links (edges) of the raster grid as (tail, head) pairs:
horizontal links point toward increasing x, vertical links toward
increasing y. -/
def links (g : RasterGrid) : List (ℕ × ℕ) :=
  ((List.range g.rows).map (fun r =>
    (List.range (g.cols - 1)).map (fun c => (g.nodeId r c, g.nodeId r (c + 1)))
      ++ (if r + 1 < g.rows then
            (List.range g.cols).map (fun c => (g.nodeId r c, g.nodeId (r + 1) c))
          else []))).flatten

/-- Boundary classification of node `n` (out-of-range ids are treated as
closed). -/
def statusAt (g : RasterGrid) (n : ℕ) : NodeStatus :=
  g.status.getD n NodeStatus.closed

/-- Modelled from the spec: a link is active when neither endpoint is
closed and it does not connect two boundary nodes, i.e. at least one
endpoint is a core node ("those not connected to a closed boundary, and
not connecting two boundary nodes of any type"). -/
def linkIsActive (g : RasterGrid) (t h : ℕ) : Bool :=
  if g.statusAt t = NodeStatus.closed ∨ g.statusAt h = NodeStatus.closed then false
  else if g.statusAt t = NodeStatus.core ∨ g.statusAt h = NodeStatus.core then true
  else false

/-- Modelled from the spec: `calc_grad_at_link` — the directional
gradient of field `z` along a link: (value at head − value at tail)
divided by the link length. -/
def grad (g : RasterGrid) (z : List ℚ) (l : ℕ × ℕ) : ℚ :=
  (z.getD l.2 0 - z.getD l.1 0) / g.dx

/-- The canonical flux field of an elevation field: −D × gradient on
every active link and zero on every inactive link. -/
def linkFlux (g : RasterGrid) (D : ℚ) (z : List ℚ) : List ℚ :=
  g.links.map (fun l => if g.linkIsActive l.1 l.2 then -D * g.grad z l else 0)

/-- Modelled from the spec: `calc_flux_div_at_node` — the net flux
divergence at node `n`: the signed sum of the fluxes on incident links,
outflux positive (flux on a link whose tail is `n` leaves `n`, flux on a
link whose head is `n` enters `n`). -/
def calc_flux_div_at_node (g : RasterGrid) (qs : List ℚ) (n : ℕ) : ℚ :=
  ((g.links.zip qs).map
    (fun p => (if p.1.1 = n then p.2 else 0) - (if p.1.2 = n then p.2 else 0))).sum

end RasterGrid

/-- The flux-update statement `qs[mg.active_links] = -D * g[mg.active_links]`
of the notebook loop: overwrite the flux on every active link with
−D × gradient, leaving inactive entries as they were. -/
def stepQs (g : RasterGrid) (D : ℚ) (z qs : List ℚ) : List ℚ :=
  (g.links.zip qs).map
    (fun p => if g.linkIsActive p.1.1 p.1.2 then -D * g.grad z p.1 else p.2)

/-- One pass of the notebook's diffusion time loop on the state
(elevation field, flux field): recompute the flux on active links,
take the flux divergence at nodes, and advance every core node by
`(-divergence) * dt`; non-core nodes keep their values. -/
def diffusionStep (g : RasterGrid) (D dt : ℚ) (s : List ℚ × List ℚ) :
    List ℚ × List ℚ :=
  let qs' := stepQs g D s.1 s.2
  ((List.range g.N).map (fun n =>
      if g.statusAt n = NodeStatus.core then
        s.1.getD n 0 + (-(g.calc_flux_div_at_node qs' n)) * dt
      else s.1.getD n 0),
   qs')

/-- `k` passes of the diffusion time loop. -/
def iterateStep (g : RasterGrid) (D dt : ℚ) : ℕ → List ℚ × List ℚ → List ℚ × List ℚ
  | 0, s => s
  | k + 1, s => iterateStep g D dt k (diffusionStep g D dt s)

/-- The zero-initialized flux field `qs = mg.add_zeros('link', 'sediment_flux')`
(cell-32). -/
def zerosQs (g : RasterGrid) : List ℚ := List.replicate g.links.length 0

/-- The flux field holds zero on every inactive link (true of the
notebook's flux field at every step, since it is created as all zeros
and only active entries are ever written). -/
def qsInactiveZero (g : RasterGrid) (qs : List ℚ) : Prop :=
  ∀ p ∈ g.links.zip qs, g.linkIsActive p.1.1 p.1.2 = false → p.2 = 0

/-- Neighbors of node `n` across active links: for every active link
incident to `n`, the opposite endpoint. -/
def RasterGrid.activeNeighbors (g : RasterGrid) (n : ℕ) : List ℕ :=
  g.links.filterMap (fun l =>
    if g.linkIsActive l.1 l.2 then
      if l.1 = n then some l.2 else if l.2 = n then some l.1 else none
    else none)

/-- Maximum of the old values over node `n` and its neighbors across
active links. -/
def localMaxAt (g : RasterGrid) (z : List ℚ) (n : ℕ) : ℚ :=
  (g.activeNeighbors n).foldr (fun w acc => max (z.getD w 0) acc) (z.getD n 0)

/-- Minimum of the old values over node `n` and its neighbors across
active links. -/
def localMinAt (g : RasterGrid) (z : List ℚ) (n : ℕ) : ℚ :=
  (g.activeNeighbors n).foldr (fun w acc => min (z.getD w 0) acc) (z.getD n 0)

/-- Largest absolute value occurring in a field. -/
def maxAbs (z : List ℚ) : ℚ := z.foldr (fun x acc => max |x| acc) 0

/-- Perimeter-closed boundary classification for a `rows × cols` raster
grid (`set_closed_boundaries_at_grid_edges(True, True, True, True)`):
every perimeter node closed, all others core. -/
def closedPerimeterStatus (rows cols : ℕ) : List NodeStatus :=
  (List.range (rows * cols)).map (fun n =>
    if n / cols = 0 ∨ n / cols = rows - 1 ∨ n % cols = 0 ∨ n % cols = cols - 1 then
      NodeStatus.closed
    else NodeStatus.core)

/-- Perimeter-open boundary classification: every perimeter node a
fixed-value boundary (the landlab default), all others core. -/
def openPerimeterStatus (rows cols : ℕ) : List NodeStatus :=
  (List.range (rows * cols)).map (fun n =>
    if n / cols = 0 ∨ n / cols = rows - 1 ∨ n % cols = 0 ∨ n % cols = cols - 1 then
      NodeStatus.fixedValue
    else NodeStatus.core)

/-- The 5 × 5 unit-spacing grid with all boundaries closed, used by the
spec's end-to-end scenario. -/
def g5 : RasterGrid := RasterGrid.mk 5 5 1 (closedPerimeterStatus 5 5)

/-- A field that is `c` everywhere except `h` at node `m`. -/
def deltaField (g : RasterGrid) (m : ℕ) (h c : ℚ) : List ℚ :=
  (List.range g.N).map (fun n => if n = m then h else c)

section Lemmas

/-- Indexing a map over `List.range`. -/
theorem getD_range_map (k : ℕ) (F : ℕ → ℚ) (n : ℕ) :
    ((List.range k).map F).getD n 0 = if n < k then F n else 0 := by
  by_cases h : n < k
  · rw [List.getD_eq_getElem _ _ (by simpa using h)]
    simp [h]
  · rw [List.getD_eq_default _ _ (by simpa using Nat.le_of_not_lt h)]
    simp [h]

theorem diffusionStep_fst_length (g : RasterGrid) (D dt : ℚ) (s : List ℚ × List ℚ) :
    (diffusionStep g D dt s).1.length = g.N := by
  simp [diffusionStep]

theorem diffusionStep_fst_getD (g : RasterGrid) (D dt : ℚ) (s : List ℚ × List ℚ) (n : ℕ) :
    (diffusionStep g D dt s).1.getD n 0 =
      if n < g.N then
        (if g.statusAt n = NodeStatus.core then
          s.1.getD n 0 + (-(g.calc_flux_div_at_node (stepQs g D s.1 s.2) n)) * dt
        else s.1.getD n 0)
      else 0 := by
  simp only [diffusionStep]
  rw [getD_range_map]

theorem zip_self_map {α β : Type} (l : List α) (f : α → β) :
    l.zip (l.map f) = l.map (fun a => (a, f a)) := by
  induction l with
  | nil => rfl
  | cons a l ih => simp [ih]

theorem zerosQs_length (g : RasterGrid) : (zerosQs g).length = g.links.length := by
  simp [zerosQs]

theorem qsInactiveZero_zerosQs (g : RasterGrid) : qsInactiveZero g (zerosQs g) := by
  intro p hp _
  have := List.of_mem_zip hp
  exact List.eq_of_mem_replicate this.2

theorem linkFlux_length (g : RasterGrid) (D : ℚ) (z : List ℚ) :
    (g.linkFlux D z).length = g.links.length := by
  simp [RasterGrid.linkFlux]

theorem qsInactiveZero_linkFlux (g : RasterGrid) (D : ℚ) (z : List ℚ) :
    qsInactiveZero g (g.linkFlux D z) := by
  intro p hp hact
  rw [RasterGrid.linkFlux, zip_self_map, List.mem_map] at hp
  obtain ⟨l, _, rfl⟩ := hp
  simpa [hact] using rfl

theorem stepQs_eq_linkFlux (g : RasterGrid) (D : ℚ) (z qs : List ℚ)
    (hlen : qs.length = g.links.length) (hqs : qsInactiveZero g qs) :
    stepQs g D z qs = g.linkFlux D z := by
  apply List.ext_getElem
  · simp [stepQs, RasterGrid.linkFlux, hlen]
  · intro i h1 h2
    have hlinks : i < g.links.length := by simpa [RasterGrid.linkFlux] using h2
    have hqsl : i < qs.length := by omega
    simp only [stepQs, RasterGrid.linkFlux, List.getElem_map, List.getElem_zip]
    by_cases ha : g.linkIsActive (g.links[i]).1 (g.links[i]).2
    · simp [ha]
    · have hmem : (g.links[i], qs[i]) ∈ g.links.zip qs := by
        have hi1 : i < (g.links.zip qs).length := by
          simp [List.length_zip, hlen, hlinks]
        have hx := List.getElem_mem hi1
        rwa [List.getElem_zip] at hx
      have h0 := hqs _ hmem (by simpa using ha)
      simp only [Bool.not_eq_true] at ha
      simp only [ha, Bool.false_eq_true, if_false]
      exact h0

theorem fluxDivAux_eq_nbr_sum (D dxv : ℚ) (zf : ℕ → ℚ) (n : ℕ)
    (act : ℕ × ℕ → Bool) (ls : List (ℕ × ℕ)) :
    ((ls.map (fun l => (l, if act l then -D * ((zf l.2 - zf l.1) / dxv) else 0))).map
        (fun p => (if p.1.1 = n then p.2 else 0) - (if p.1.2 = n then p.2 else 0))).sum =
      ((ls.filterMap (fun l =>
          if act l then
            if l.1 = n then some l.2 else if l.2 = n then some l.1 else none
          else none)).map (fun w => D * (zf n - zf w) / dxv)).sum := by
  induction ls with
  | nil => rfl
  | cons l ls ih =>
    obtain ⟨a, b⟩ := l
    by_cases ha : act (a, b)
    · by_cases h1 : a = n
      · subst h1
        by_cases h2 : b = a
        · subst h2
          simp only [List.map_cons, List.sum_cons, List.filterMap_cons, ha, if_true,
            if_pos rfl, List.map_cons, List.sum_cons, ih]
          simp
        · simp only [List.map_cons, List.sum_cons, List.filterMap_cons, ha, if_true, ih,
            if_pos rfl, h2, if_neg, if_false, List.map_cons, List.sum_cons]
          ring
      · by_cases h2 : b = n
        · subst h2
          simp only [List.map_cons, List.sum_cons, List.filterMap_cons, ha, if_true, ih,
            h1, if_neg, if_false, if_pos rfl, List.map_cons, List.sum_cons]
          ring
        · simp only [List.map_cons, List.sum_cons, List.filterMap_cons, ha, if_true, ih,
            h1, h2, if_neg, if_false]
          ring
    · simp only [Bool.not_eq_true] at ha
      simp only [List.map_cons, List.sum_cons, List.filterMap_cons, ha, Bool.false_eq_true,
        if_false, ih]
      simp

theorem fluxDiv_linkFlux (g : RasterGrid) (D : ℚ) (z : List ℚ) (n : ℕ) :
    g.calc_flux_div_at_node (g.linkFlux D z) n =
      ((g.activeNeighbors n).map (fun w => D * (z.getD n 0 - z.getD w 0) / g.dx)).sum := by
  rw [RasterGrid.calc_flux_div_at_node, RasterGrid.linkFlux, zip_self_map,
    RasterGrid.activeNeighbors]
  exact fluxDivAux_eq_nbr_sum D g.dx (fun i => z.getD i 0) n
    (fun l => g.linkIsActive l.1 l.2) g.links

theorem links_mem_spec (g : RasterGrid) :
    ∀ l ∈ g.links, l.1 ≠ l.2 ∧ l.1 < g.N ∧ l.2 < g.N := by
  intro l hl
  simp only [RasterGrid.links, List.mem_flatten, List.mem_map] at hl
  obtain ⟨L, ⟨r, hr, rfl⟩, hlL⟩ := hl
  simp only [List.mem_range] at hr
  rw [List.mem_append] at hlL
  rcases hlL with h | h
  · obtain ⟨c, hc, rfl⟩ := List.mem_map.1 h
    simp only [List.mem_range] at hc
    have h1 : (r + 1) * g.cols ≤ g.rows * g.cols := Nat.mul_le_mul_right _ (by omega)
    have h2 : r * g.cols + g.cols = (r + 1) * g.cols := by ring
    refine ⟨?_, ?_, ?_⟩ <;> simp only [RasterGrid.nodeId, RasterGrid.N] <;> omega
  · by_cases hP : r + 1 < g.rows
    · rw [if_pos hP] at h
      obtain ⟨c, hc, rfl⟩ := List.mem_map.1 h
      simp only [List.mem_range] at hc
      have h1 : (r + 2) * g.cols ≤ g.rows * g.cols := Nat.mul_le_mul_right _ (by omega)
      have h2 : r * g.cols + g.cols = (r + 1) * g.cols := by ring
      have h3 : (r + 1) * g.cols + g.cols = (r + 2) * g.cols := by ring
      refine ⟨?_, ?_, ?_⟩ <;> simp only [RasterGrid.nodeId, RasterGrid.N] <;> omega
    · rw [if_neg hP] at h
      exact absurd h (List.not_mem_nil l)

theorem activeNeighbors_mem_spec (g : RasterGrid) {n w : ℕ}
    (hw : w ∈ g.activeNeighbors n) : w ≠ n ∧ w < g.N := by
  simp only [RasterGrid.activeNeighbors, List.mem_filterMap] at hw
  obtain ⟨l, hl, hf⟩ := hw
  obtain ⟨hne, h1, h2⟩ := links_mem_spec g l hl
  by_cases ha : g.linkIsActive l.1 l.2
  · rw [if_pos ha] at hf
    split_ifs at hf with e1 e2
    · obtain rfl : w = l.2 := by injection hf with h; omega
      exact ⟨by rw [← e1]; exact fun h => hne h.symm, h2⟩
    · obtain rfl : w = l.1 := by injection hf with h; omega
      exact ⟨by rw [← e2]; exact hne, h1⟩
  · rw [if_neg ha] at hf
    cases hf

theorem activeNeighbors_symm (g : RasterGrid) {n w : ℕ}
    (hw : w ∈ g.activeNeighbors n) : n ∈ g.activeNeighbors w := by
  have hwn := (activeNeighbors_mem_spec g hw).1
  simp only [RasterGrid.activeNeighbors, List.mem_filterMap] at hw ⊢
  obtain ⟨l, hl, hf⟩ := hw
  obtain ⟨hne, _, _⟩ := links_mem_spec g l hl
  refine ⟨l, hl, ?_⟩
  by_cases ha : g.linkIsActive l.1 l.2
  · rw [if_pos ha] at hf
    rw [if_pos ha]
    split_ifs at hf with e1 e2
    · obtain rfl : w = l.2 := by injection hf with h; omega
      rw [if_neg (by rw [e1]; exact fun h => hwn h.symm), if_pos rfl, e1]
    · obtain rfl : w = l.1 := by injection hf with h; omega
      rw [if_pos rfl, e2]
  · rw [if_neg ha] at hf
    cases hf

theorem sum_fluxDivAux (pairs : List ((ℕ × ℕ) × ℚ)) (S : Finset ℕ) :
    (∑ n in S, (pairs.map
        (fun p => (if p.1.1 = n then p.2 else 0) - (if p.1.2 = n then p.2 else 0))).sum) =
      (pairs.map
        (fun p => (if p.1.1 ∈ S then p.2 else 0) - (if p.1.2 ∈ S then p.2 else 0))).sum := by
  induction pairs with
  | nil => simp
  | cons p pairs ih =>
    simp only [List.map_cons, List.sum_cons]
    rw [Finset.sum_add_distrib, ih, Finset.sum_sub_distrib, Finset.sum_ite_eq,
      Finset.sum_ite_eq]

theorem sum_fluxDiv (g : RasterGrid) (qs : List ℚ) (S : Finset ℕ) :
    (∑ n in S, g.calc_flux_div_at_node qs n) =
      ((g.links.zip qs).map
        (fun p => (if p.1.1 ∈ S then p.2 else 0) - (if p.1.2 ∈ S then p.2 else 0))).sum :=
  sum_fluxDivAux (g.links.zip qs) S

theorem step_core_getD (g : RasterGrid) (D dt : ℚ) (z qs : List ℚ)
    (hlen : qs.length = g.links.length) (hqs : qsInactiveZero g qs) {n : ℕ}
    (hn : n < g.N) (hcore : g.statusAt n = NodeStatus.core) :
    (diffusionStep g D dt (z, qs)).1.getD n 0 =
      z.getD n 0 -
        dt * ((g.activeNeighbors n).map
          (fun w => D * (z.getD n 0 - z.getD w 0) / g.dx)).sum := by
  rw [diffusionStep_fst_getD, if_pos hn]
  rw [if_pos hcore]
  rw [stepQs_eq_linkFlux g D z qs hlen hqs, fluxDiv_linkFlux]
  ring

theorem le_foldr_max_init (f : ℕ → ℚ) (a : ℚ) (l : List ℕ) :
    a ≤ l.foldr (fun w acc => max (f w) acc) a := by
  induction l with
  | nil => exact le_refl a
  | cons b l ih => exact le_trans ih (le_max_right _ _)

theorem le_foldr_max_mem (f : ℕ → ℚ) (a : ℚ) {l : List ℕ} {w : ℕ} (hw : w ∈ l) :
    f w ≤ l.foldr (fun v acc => max (f v) acc) a := by
  induction l with
  | nil => cases hw
  | cons b l ih =>
    rcases List.mem_cons.1 hw with rfl | h
    · exact le_max_left _ _
    · exact le_trans (ih h) (le_max_right _ _)

theorem foldr_max_le (f : ℕ → ℚ) (a M : ℚ) (l : List ℕ) (ha : a ≤ M)
    (h : ∀ w ∈ l, f w ≤ M) : l.foldr (fun w acc => max (f w) acc) a ≤ M := by
  induction l with
  | nil => exact ha
  | cons b l ih =>
    exact max_le (h b (by simp)) (ih fun w hw => h w (by simp [hw]))

theorem foldr_min_init_le (f : ℕ → ℚ) (a : ℚ) (l : List ℕ) :
    l.foldr (fun w acc => min (f w) acc) a ≤ a := by
  induction l with
  | nil => exact le_refl a
  | cons b l ih => exact le_trans (min_le_right _ _) ih

theorem foldr_min_le_mem (f : ℕ → ℚ) (a : ℚ) {l : List ℕ} {w : ℕ} (hw : w ∈ l) :
    l.foldr (fun v acc => min (f v) acc) a ≤ f w := by
  induction l with
  | nil => cases hw
  | cons b l ih =>
    rcases List.mem_cons.1 hw with rfl | h
    · exact min_le_left _ _
    · exact le_trans (min_le_right _ _) (ih h)

theorem le_foldr_min (f : ℕ → ℚ) (a m : ℚ) (l : List ℕ) (ha : m ≤ a)
    (h : ∀ w ∈ l, m ≤ f w) : m ≤ l.foldr (fun w acc => min (f w) acc) a := by
  induction l with
  | nil => exact ha
  | cons b l ih =>
    exact le_min (h b (by simp)) (ih fun w hw => h w (by simp [hw]))

theorem sum_map_div_factor (D dxv : ℚ) (f : ℕ → ℚ) (l : List ℕ) :
    (l.map (fun w => D * f w / dxv)).sum = D / dxv * (l.map f).sum := by
  induction l with
  | nil => simp
  | cons b l ih =>
    simp only [List.map_cons, List.sum_cons, ih]
    ring

theorem sum_map_const_sub (c : ℚ) (f : ℕ → ℚ) (l : List ℕ) :
    (l.map (fun w => c - f w)).sum = l.length * c - (l.map f).sum := by
  induction l with
  | nil => simp
  | cons b l ih =>
    simp only [List.map_cons, List.sum_cons, ih, List.length_cons]
    push_cast
    ring

theorem sum_map_le (f : ℕ → ℚ) (M : ℚ) (l : List ℕ) (h : ∀ w ∈ l, f w ≤ M) :
    (l.map f).sum ≤ l.length * M := by
  induction l with
  | nil => simp
  | cons b l ih =>
    simp only [List.map_cons, List.sum_cons, List.length_cons]
    push_cast
    have h1 := h b (by simp)
    have h2 := ih fun w hw => h w (by simp [hw])
    linarith

theorem le_sum_map (f : ℕ → ℚ) (m : ℚ) (l : List ℕ) (h : ∀ w ∈ l, m ≤ f w) :
    (l.length : ℚ) * m ≤ (l.map f).sum := by
  induction l with
  | nil => simp
  | cons b l ih =>
    simp only [List.map_cons, List.sum_cons, List.length_cons]
    push_cast
    have h1 := h b (by simp)
    have h2 := ih fun w hw => h w (by simp [hw])
    linarith

theorem step_core_within_local_range (g : RasterGrid) (D dt : ℚ) (z qs : List ℚ)
    (hdx : 0 < g.dx) (hD : 0 ≤ D) (hdt : 0 ≤ dt)
    (hlen : qs.length = g.links.length) (hqs : qsInactiveZero g qs) {n : ℕ}
    (hn : n < g.N) (hcore : g.statusAt n = NodeStatus.core)
    (hstab : dt * D * ((g.activeNeighbors n).length : ℚ) ≤ g.dx) :
    localMinAt g z n ≤ (diffusionStep g D dt (z, qs)).1.getD n 0 ∧
      (diffusionStep g D dt (z, qs)).1.getD n 0 ≤ localMaxAt g z n := by
  rw [step_core_getD g D dt z qs hlen hqs hn hcore, sum_map_div_factor, sum_map_const_sub]
  have hdxne : g.dx ≠ 0 := ne_of_gt hdx
  have hznM : z.getD n 0 ≤ localMaxAt g z n := le_foldr_max_init _ _ _
  have hmzn : localMinAt g z n ≤ z.getD n 0 := foldr_min_init_le _ _ _
  have hSM : ((g.activeNeighbors n).map (fun w => z.getD w 0)).sum ≤
      ((g.activeNeighbors n).length : ℚ) * localMaxAt g z n :=
    sum_map_le _ _ _ (fun w hw => le_foldr_max_mem _ _ hw)
  have hSm : ((g.activeNeighbors n).length : ℚ) * localMinAt g z n ≤
      ((g.activeNeighbors n).map (fun w => z.getD w 0)).sum :=
    le_sum_map _ _ _ (fun w hw => foldr_min_le_mem _ _ hw)
  constructor
  · have key : g.dx * localMinAt g z n ≤
        g.dx * (z.getD n 0 - dt * (D / g.dx *
          (((g.activeNeighbors n).length : ℚ) * z.getD n 0 -
            ((g.activeNeighbors n).map (fun w => z.getD w 0)).sum))) := by
      have expand : g.dx * (z.getD n 0 - dt * (D / g.dx *
          (((g.activeNeighbors n).length : ℚ) * z.getD n 0 -
            ((g.activeNeighbors n).map (fun w => z.getD w 0)).sum))) =
          g.dx * z.getD n 0 - dt * D *
            (((g.activeNeighbors n).length : ℚ) * z.getD n 0 -
              ((g.activeNeighbors n).map (fun w => z.getD w 0)).sum) := by
        field_simp
        ring
      rw [expand]
      nlinarith [mul_nonneg (mul_nonneg hdt hD) (sub_nonneg.2 hSm),
        mul_nonneg (sub_nonneg.2 hstab) (sub_nonneg.2 hmzn)]
    exact le_of_mul_le_mul_left key hdx
  · have key : g.dx * (z.getD n 0 - dt * (D / g.dx *
        (((g.activeNeighbors n).length : ℚ) * z.getD n 0 -
          ((g.activeNeighbors n).map (fun w => z.getD w 0)).sum))) ≤
        g.dx * localMaxAt g z n := by
      have expand : g.dx * (z.getD n 0 - dt * (D / g.dx *
          (((g.activeNeighbors n).length : ℚ) * z.getD n 0 -
            ((g.activeNeighbors n).map (fun w => z.getD w 0)).sum))) =
          g.dx * z.getD n 0 - dt * D *
            (((g.activeNeighbors n).length : ℚ) * z.getD n 0 -
              ((g.activeNeighbors n).map (fun w => z.getD w 0)).sum) := by
        field_simp
        ring
      rw [expand]
      nlinarith [mul_nonneg (mul_nonneg hdt hD) (sub_nonneg.2 hSM),
        mul_nonneg (sub_nonneg.2 hstab) (sub_nonneg.2 hznM)]
    exact le_of_mul_le_mul_left key hdx

theorem getD_mem_bounds (z : List ℚ) (lo hi : ℚ) (hb : ∀ x ∈ z, lo ≤ x ∧ x ≤ hi)
    {i : ℕ} (hi' : i < z.length) : lo ≤ z.getD i 0 ∧ z.getD i 0 ≤ hi := by
  rw [List.getD_eq_getElem _ _ hi']
  exact hb _ (List.getElem_mem hi')

theorem step_preserves_global_bounds (g : RasterGrid) (D dt : ℚ) (z qs : List ℚ)
    (lo hi : ℚ) (hdx : 0 < g.dx) (hD : 0 ≤ D) (hdt : 0 ≤ dt)
    (hlen : qs.length = g.links.length) (hqs : qsInactiveZero g qs)
    (hzlen : z.length = g.N)
    (hconv : ∀ n, n < g.N → g.statusAt n = NodeStatus.core →
      dt * D * ((g.activeNeighbors n).length : ℚ) ≤ g.dx)
    (hb : ∀ x ∈ z, lo ≤ x ∧ x ≤ hi) :
    ∀ x ∈ (diffusionStep g D dt (z, qs)).1, lo ≤ x ∧ x ≤ hi := by
  intro x hx
  have hent : ∀ i, i < g.N → lo ≤ z.getD i 0 ∧ z.getD i 0 ≤ hi := by
    intro i hi'
    exact getD_mem_bounds z lo hi hb (by omega)
  simp only [diffusionStep, List.mem_map, List.mem_range] at hx
  obtain ⟨n, hn, rfl⟩ := hx
  have hgetD : ∀ y : ℚ,
      (diffusionStep g D dt (z, qs)).1.getD n 0 = y →
      ((if g.statusAt n = NodeStatus.core then
          z.getD n 0 +
            -g.calc_flux_div_at_node (stepQs g D (z, qs).1 (z, qs).2) n * dt
        else z.getD n 0) = y) := by
    intro y hy
    rw [diffusionStep_fst_getD, if_pos hn] at hy
    simpa using hy
  by_cases hcore : g.statusAt n = NodeStatus.core
  · have hb2 := step_core_within_local_range g D dt z qs hdx hD hdt hlen hqs hn hcore
      (hconv n hn hcore)
    have heq : (diffusionStep g D dt (z, qs)).1.getD n 0 =
        (if g.statusAt n = NodeStatus.core then
          z.getD n 0 +
            -g.calc_flux_div_at_node (stepQs g D (z, qs).1 (z, qs).2) n * dt
        else z.getD n 0) := by
      rw [diffusionStep_fst_getD, if_pos hn]
    rw [← heq]
    constructor
    · refine le_trans ?_ hb2.1
      refine le_foldr_min _ _ _ _ (hent n hn).1 ?_
      intro w hw
      exact (hent w (activeNeighbors_mem_spec g hw).2).1
    · refine le_trans hb2.2 ?_
      refine foldr_max_le _ _ _ _ (hent n hn).2 ?_
      intro w hw
      exact (hent w (activeNeighbors_mem_spec g hw).2).2
  · rw [if_neg hcore]
    exact hent n hn

theorem iterate_inv (g : RasterGrid) (D dt : ℚ) (P : List ℚ × List ℚ → Prop)
    (hstep : ∀ s, P s → P (diffusionStep g D dt s)) :
    ∀ k s, P s → P (iterateStep g D dt k s) := by
  intro k
  induction k with
  | zero => exact fun s hs => hs
  | succ k ih => exact fun s hs => ih _ (hstep s hs)

theorem iterateStep_succ_right (g : RasterGrid) (D dt : ℚ) (k : ℕ)
    (s : List ℚ × List ℚ) :
    iterateStep g D dt (k + 1) s = diffusionStep g D dt (iterateStep g D dt k s) := by
  induction k generalizing s with
  | zero => rfl
  | succ k ih =>
    show iterateStep g D dt (k + 1) (diffusionStep g D dt s) = _
    rw [ih]
    rfl

theorem linkIsActive_not_closed (g : RasterGrid) {t h : ℕ}
    (ha : g.linkIsActive t h = true) :
    g.statusAt t ≠ NodeStatus.closed ∧ g.statusAt h ≠ NodeStatus.closed := by
  by_cases h1 : g.statusAt t = NodeStatus.closed ∨ g.statusAt h = NodeStatus.closed
  · rw [RasterGrid.linkIsActive, if_pos h1] at ha
    cases ha
  · push_neg at h1
    exact h1

theorem status_core_of_not_closed_not_fixed {s : NodeStatus}
    (h1 : s ≠ NodeStatus.closed) (h2 : s ≠ NodeStatus.fixedValue) :
    s = NodeStatus.core := by
  cases s
  · rfl
  · exact absurd rfl h2
  · exact absurd rfl h1

theorem deltaField_getD (g : RasterGrid) (m : ℕ) (h c : ℚ) (i : ℕ) :
    (deltaField g m h c).getD i 0 = if i < g.N then (if i = m then h else c) else 0 :=
  getD_range_map _ _ _

theorem list_sum_nonpos (l : List ℚ) (h : ∀ x ∈ l, x ≤ 0) : l.sum ≤ 0 := by
  induction l with
  | nil => simp
  | cons b l ih =>
    have h1 := h b (by simp)
    have h2 := ih fun x hx => h x (by simp [hx])
    simp only [List.sum_cons]
    linarith

theorem sum_neg_of_nonpos_of_mem_neg (l : List ℚ) (h1 : ∀ x ∈ l, x ≤ 0)
    {x0 : ℚ} (hx0 : x0 ∈ l) (hneg : x0 < 0) : l.sum < 0 := by
  induction l with
  | nil => cases hx0
  | cons b l ih =>
    simp only [List.sum_cons]
    have hb := h1 b (by simp)
    have hl := list_sum_nonpos l fun x hx => h1 x (by simp [hx])
    rcases List.mem_cons.1 hx0 with rfl | h
    · linarith
    · have := ih (fun x hx => h1 x (by simp [hx])) h
      linarith

theorem maxAbs_le (z : List ℚ) (M : ℚ) (hM : 0 ≤ M) (h : ∀ x ∈ z, |x| ≤ M) :
    maxAbs z ≤ M := by
  induction z with
  | nil => exact hM
  | cons b z ih =>
    have h1 := h b (by simp)
    have h2 := ih fun x hx => h x (by simp [hx])
    simpa [maxAbs] using max_le h1 h2

theorem abs_le_maxAbs_of_mem {z : List ℚ} {x : ℚ} (hx : x ∈ z) : |x| ≤ maxAbs z := by
  induction z with
  | nil => cases hx
  | cons b z ih =>
    rcases List.mem_cons.1 hx with rfl | h
    · simpa [maxAbs] using le_max_left _ _
    · exact le_trans (ih h) (by simpa [maxAbs] using le_max_right _ _)

end Lemmas

section Claims

/-- C8: the stepper never rejects its inputs: for every elevation field,
every flux field, every diffusivity and every time step (including
non-positive values), one invocation completes and produces an updated
elevation field over all grid nodes and an updated flux field over the
links; there is no error branch. -/
theorem C8_stepper_total (g : RasterGrid) (D dt : ℚ) (z qs : List ℚ) :
    (diffusionStep g D dt (z, qs)).1.length = g.N ∧
      (diffusionStep g D dt (z, qs)).2.length = min g.links.length qs.length := by
  refine ⟨diffusionStep_fst_length g D dt (z, qs), ?_⟩
  simp [diffusionStep, stepQs]

/-- C2: for every input field, diffusivity, time step and number of
repeated applications of the stepper, the value at every node not
classified core (closed or fixed-value boundary) is left unchanged. -/
theorem C2_boundary_immobile (g : RasterGrid) (D dt : ℚ) (z qs : List ℚ) (k n : ℕ)
    (hn : n < g.N) (hstat : g.statusAt n ≠ NodeStatus.core) :
    (iterateStep g D dt k (z, qs)).1.getD n 0 = z.getD n 0 := by
  refine iterate_inv g D dt (fun s => s.1.getD n 0 = z.getD n 0) ?_ k (z, qs) rfl
  intro s hs
  rw [diffusionStep_fst_getD, if_pos hn, if_neg hstat]
  exact hs

/-- Witness for C2 on the 5 × 5 closed-boundary grid: node 0 is a closed
boundary node and keeps its value over three steps. -/
theorem C2_boundary_immobile_witness :
    0 < g5.N ∧ g5.statusAt 0 ≠ NodeStatus.core ∧
      (iterateStep g5 1 1 3 (deltaField g5 12 10 0, zerosQs g5)).1.getD 0 0 =
        (deltaField g5 12 10 0).getD 0 0 :=
  ⟨by decide, by decide,
    C2_boundary_immobile g5 1 1 (deltaField g5 12 10 0) (zerosQs g5) 3 0
      (by decide) (by decide)⟩

/-- C4: a uniform field is a fixed point of the stepper: for every
diffusivity and every time step, one application leaves every value
(interior values included) unchanged. -/
theorem C4_uniform_fixed_point (g : RasterGrid) (D dt c : ℚ) (qs : List ℚ)
    (hlen : qs.length = g.links.length) (hqs : qsInactiveZero g qs) :
    (diffusionStep g D dt (List.replicate g.N c, qs)).1 = List.replicate g.N c := by
  have hget : ∀ i, i < g.N → (List.replicate g.N c).getD i 0 = c := by
    intro i hi
    rw [List.getD_eq_getElem _ _ (by simpa using hi), List.getElem_replicate]
  have hgetD : ∀ n, n < g.N →
      (diffusionStep g D dt (List.replicate g.N c, qs)).1.getD n 0 = c := by
    intro n hn
    by_cases hcore : g.statusAt n = NodeStatus.core
    · rw [step_core_getD g D dt _ qs hlen hqs hn hcore]
      have hzero : ((g.activeNeighbors n).map
          (fun w => D * ((List.replicate g.N c).getD n 0 -
            (List.replicate g.N c).getD w 0) / g.dx)).sum = 0 := by
        apply List.sum_eq_zero
        intro x hx
        rw [List.mem_map] at hx
        obtain ⟨w, hw, rfl⟩ := hx
        rw [hget n hn, hget w (activeNeighbors_mem_spec g hw).2]
        simp
      rw [hzero, hget n hn]
      ring
    · rw [diffusionStep_fst_getD, if_pos hn, if_neg hcore]
      exact hget n hn
  apply List.ext_getElem
  · simp [diffusionStep]
  · intro i h1 h2
    have hiN : i < g.N := by simpa [diffusionStep] using h1
    rw [← List.getD_eq_getElem _ 0 h1, ← List.getD_eq_getElem _ 0 h2,
      hgetD i hiN, hget i hiN]

/-- Witness for C4 on the 5 × 5 closed-boundary grid with value 7,
diffusivity 2 and time step 3. -/
theorem C4_uniform_fixed_point_witness :
    (zerosQs g5).length = g5.links.length ∧ qsInactiveZero g5 (zerosQs g5) ∧
      (diffusionStep g5 2 3 (List.replicate g5.N 7, zerosQs g5)).1 =
        List.replicate g5.N 7 :=
  ⟨zerosQs_length g5, qsInactiveZero_zerosQs g5,
    C4_uniform_fixed_point g5 2 3 7 (zerosQs g5) (zerosQs_length g5)
      (qsInactiveZero_zerosQs g5)⟩

/-- C9: starting from the zero-initialized flux field, after every
application of the stepper the flux field is the canonical flux of the
elevation field that entered that application — equal to −diffusivity ×
gradient on every active link and zero on every inactive link,
independent of any flux values held before the step. -/
theorem C9_flux_recomputed (g : RasterGrid) (D dt : ℚ) (z0 : List ℚ) (k : ℕ) :
    (iterateStep g D dt (k + 1) (z0, zerosQs g)).2 =
      g.linkFlux D ((iterateStep g D dt k (z0, zerosQs g)).1) := by
  rw [iterateStep_succ_right]
  have hinv : qsInactiveZero g ((iterateStep g D dt k (z0, zerosQs g)).2) ∧
      ((iterateStep g D dt k (z0, zerosQs g)).2).length = g.links.length := by
    refine iterate_inv g D dt
      (fun s => qsInactiveZero g s.2 ∧ s.2.length = g.links.length) ?_ k _
      ⟨qsInactiveZero_zerosQs g, zerosQs_length g⟩
    intro s hs
    have hsnd : (diffusionStep g D dt s).2 = stepQs g D s.1 s.2 := rfl
    rw [hsnd, stepQs_eq_linkFlux g D s.1 s.2 hs.2 hs.1]
    exact ⟨qsInactiveZero_linkFlux g D s.1, linkFlux_length g D s.1⟩
  exact stepQs_eq_linkFlux g D _ _ hinv.2 hinv.1

/-- C1: one invocation of the stepper computes, for every link, the flux
−diffusivity × gradient (gradient = (head value − tail value) / link
length) on active links and zero on inactive links; at each core node it
adds (−divergence) × dt, the divergence being the signed sum of incident
fluxes with outflux positive (`calc_flux_div_at_node`); all non-core
nodes are left untouched. -/
theorem C1_step_formulas (g : RasterGrid) (D dt : ℚ) (z qs : List ℚ)
    (hlen : qs.length = g.links.length) (hqs : qsInactiveZero g qs) :
    (∀ i, ∀ h : i < g.links.length,
      (diffusionStep g D dt (z, qs)).2.getD i 0 =
        if g.linkIsActive (g.links.get ⟨i, h⟩).1 (g.links.get ⟨i, h⟩).2 then
          -D * ((z.getD (g.links.get ⟨i, h⟩).2 0 - z.getD (g.links.get ⟨i, h⟩).1 0) /
            g.dx)
        else 0) ∧
    (∀ n, n < g.N → g.statusAt n = NodeStatus.core →
      (diffusionStep g D dt (z, qs)).1.getD n 0 =
        z.getD n 0 +
          (-(g.calc_flux_div_at_node ((diffusionStep g D dt (z, qs)).2) n)) * dt) ∧
    (∀ n, n < g.N → g.statusAt n ≠ NodeStatus.core →
      (diffusionStep g D dt (z, qs)).1.getD n 0 = z.getD n 0) := by
  have hsnd : (diffusionStep g D dt (z, qs)).2 = stepQs g D z qs := rfl
  have hflux : (diffusionStep g D dt (z, qs)).2 = g.linkFlux D z := by
    rw [hsnd]
    exact stepQs_eq_linkFlux g D z qs hlen hqs
  refine ⟨?_, ?_, ?_⟩
  · intro i h
    rw [hflux, RasterGrid.linkFlux,
      List.getD_eq_getElem _ 0 (by simpa [RasterGrid.linkFlux] using h),
      List.getElem_map]
    rfl
  · intro n hn hcore
    rw [diffusionStep_fst_getD, if_pos hn, if_pos hcore, hsnd]
  · intro n hn hcore
    rw [diffusionStep_fst_getD, if_pos hn, if_neg hcore]

/-- Witness for C1 on the 5 × 5 closed-boundary grid with the spec's
end-to-end field. -/
theorem C1_step_formulas_witness :
    (zerosQs g5).length = g5.links.length ∧ qsInactiveZero g5 (zerosQs g5) ∧
      ((∀ i, ∀ h : i < g5.links.length,
        (diffusionStep g5 (1/10) 2 (deltaField g5 12 10 0, zerosQs g5)).2.getD i 0 =
          if g5.linkIsActive (g5.links.get ⟨i, h⟩).1 (g5.links.get ⟨i, h⟩).2 then
            -(1/10) * (((deltaField g5 12 10 0).getD (g5.links.get ⟨i, h⟩).2 0 -
              (deltaField g5 12 10 0).getD (g5.links.get ⟨i, h⟩).1 0) / g5.dx)
          else 0) ∧
      (∀ n, n < g5.N → g5.statusAt n = NodeStatus.core →
        (diffusionStep g5 (1/10) 2 (deltaField g5 12 10 0, zerosQs g5)).1.getD n 0 =
          (deltaField g5 12 10 0).getD n 0 +
            (-(g5.calc_flux_div_at_node
              ((diffusionStep g5 (1/10) 2 (deltaField g5 12 10 0, zerosQs g5)).2) n)) * 2) ∧
      (∀ n, n < g5.N → g5.statusAt n ≠ NodeStatus.core →
        (diffusionStep g5 (1/10) 2 (deltaField g5 12 10 0, zerosQs g5)).1.getD n 0 =
          (deltaField g5 12 10 0).getD n 0)) :=
  ⟨zerosQs_length g5, qsInactiveZero_zerosQs g5,
    C1_step_formulas g5 (1/10) 2 (deltaField g5 12 10 0) (zerosQs g5)
      (zerosQs_length g5) (qsInactiveZero_zerosQs g5)⟩

/-- C3: when no node is a fixed-value boundary (every boundary closed),
one application of the stepper leaves the sum of the values over the
core nodes unchanged, for any interior configuration, any diffusivity
and any time step. -/
theorem C3_mass_conservation (g : RasterGrid) (D dt : ℚ) (z qs : List ℚ)
    (hclosed : ∀ n, g.statusAt n ≠ NodeStatus.fixedValue)
    (hlen : qs.length = g.links.length) (hqs : qsInactiveZero g qs) :
    (∑ n in (Finset.range g.N).filter (fun n => g.statusAt n = NodeStatus.core),
        (diffusionStep g D dt (z, qs)).1.getD n 0) =
      ∑ n in (Finset.range g.N).filter (fun n => g.statusAt n = NodeStatus.core),
        z.getD n 0 := by
  have hentry : ∀ n ∈ (Finset.range g.N).filter
      (fun n => g.statusAt n = NodeStatus.core),
      (diffusionStep g D dt (z, qs)).1.getD n 0 =
        z.getD n 0 + (-(g.calc_flux_div_at_node (g.linkFlux D z) n)) * dt := by
    intro n hn
    rw [Finset.mem_filter, Finset.mem_range] at hn
    rw [diffusionStep_fst_getD, if_pos hn.1, if_pos hn.2]
    rw [stepQs_eq_linkFlux g D z qs hlen hqs]
  rw [Finset.sum_congr rfl hentry, Finset.sum_add_distrib]
  have hdiv : (∑ n in (Finset.range g.N).filter
      (fun n => g.statusAt n = NodeStatus.core),
      g.calc_flux_div_at_node (g.linkFlux D z) n) = 0 := by
    rw [sum_fluxDiv]
    apply List.sum_eq_zero
    intro x hx
    rw [List.mem_map] at hx
    obtain ⟨p, hp, rfl⟩ := hx
    by_cases ha : g.linkIsActive p.1.1 p.1.2
    · have hl := (List.of_mem_zip hp).1
      obtain ⟨_, h1, h2⟩ := links_mem_spec g p.1 hl
      obtain ⟨hc1, hc2⟩ := linkIsActive_not_closed g ha
      have hcore1 := status_core_of_not_closed_not_fixed hc1 (hclosed p.1.1)
      have hcore2 := status_core_of_not_closed_not_fixed hc2 (hclosed p.1.2)
      rw [if_pos (Finset.mem_filter.2 ⟨Finset.mem_range.2 h1, hcore1⟩),
        if_pos (Finset.mem_filter.2 ⟨Finset.mem_range.2 h2, hcore2⟩)]
      exact sub_self _
    · have h0 : p.2 = 0 :=
        qsInactiveZero_linkFlux g D z p hp (by simpa using ha)
      rw [h0]
      simp
  rw [← Finset.sum_mul]
  have : (∑ n in (Finset.range g.N).filter
      (fun n => g.statusAt n = NodeStatus.core),
      -(g.calc_flux_div_at_node (g.linkFlux D z) n)) = 0 := by
    rw [Finset.sum_neg_distrib, hdiv, neg_zero]
  rw [this, zero_mul, add_zero]

/-- Witness for C3 on the 5 × 5 all-closed grid with the spec's
end-to-end field, diffusivity 1/10 and dt 2. -/
theorem C3_mass_conservation_witness :
    (∀ n, g5.statusAt n ≠ NodeStatus.fixedValue) ∧
      (zerosQs g5).length = g5.links.length ∧ qsInactiveZero g5 (zerosQs g5) ∧
      ((∑ n in (Finset.range g5.N).filter
          (fun n => g5.statusAt n = NodeStatus.core),
          (diffusionStep g5 (1/10) 2 (deltaField g5 12 10 0, zerosQs g5)).1.getD n 0) =
        ∑ n in (Finset.range g5.N).filter
          (fun n => g5.statusAt n = NodeStatus.core),
          (deltaField g5 12 10 0).getD n 0) := by
  have hclosed : ∀ n, g5.statusAt n ≠ NodeStatus.fixedValue := by
    intro n
    by_cases hn : n < 25
    · interval_cases n <;> decide
    · have : g5.status.length = 25 := by decide
      rw [RasterGrid.statusAt, List.getD_eq_default _ _ (by omega)]
      decide
  exact ⟨hclosed, zerosQs_length g5, qsInactiveZero_zerosQs g5,
    C3_mass_conservation g5 (1/10) 2 (deltaField g5 12 10 0) (zerosQs g5)
      hclosed (zerosQs_length g5) (qsInactiveZero_zerosQs g5)⟩

/-- The 3 × 3 grid with spacing 10 and open (fixed-value) perimeter,
matching the notebook's default boundary condition and its 10 m
spacing. -/
def g3 : RasterGrid := RasterGrid.mk 3 3 10 (openPerimeterStatus 3 3)

set_option maxRecDepth 100000 in
/-- C6: on the spec's end-to-end scenario (5 × 5 unit grid, all
boundaries closed, diffusivity 1/10, dt = 2, a single interior node 12
at 10, all others 0), node 12 has 4 active incident links; after one
step its value has decreased by exactly dt × diffusivity × (number of
active incident edges) × (its value / spacing) and each neighbor across
an active link has gained exactly a quarter of that amount. -/
theorem C6_end_to_end :
    (g5.activeNeighbors 12).length = 4 ∧
      (diffusionStep g5 (1/10) 2 (deltaField g5 12 10 0, zerosQs g5)).1.getD 12 0 =
        10 - 2 * (1/10) * 4 * (10 / 1) ∧
      (∀ w ∈ g5.activeNeighbors 12,
        (diffusionStep g5 (1/10) 2 (deltaField g5 12 10 0, zerosQs g5)).1.getD w 0 =
          0 + 2 * (1/10) * 4 * (10 / 1) / 4) := by
  with_unfolding_all decide

set_option maxRecDepth 100000 in
/-- C10 as stated is false: on the 3 × 3 open-boundary grid with the
notebook's 10 m spacing, diffusivity 1 and dt = 0.2 × spacing² /
diffusivity = 20 (satisfying the claimed bound), one step drives the
single perturbed core node below the minimum of the old values over
itself and its neighbors across active links. -/
theorem C10_counterexample :
    (20 : ℚ) = 1/5 * g3.dx * g3.dx / 1 ∧
      g3.statusAt 4 = NodeStatus.core ∧
      ¬(localMinAt g3 (deltaField g3 4 1 0) 4 ≤
        (diffusionStep g3 1 20 (deltaField g3 4 1 0, zerosQs g3)).1.getD 4 0) := by
  with_unfolding_all decide

/-- C10 (amended): for nonnegative diffusivity and time step with
dt × diffusivity × (number of active incident edges) ≤ spacing, after
one step each core node's new value lies between the minimum and the
maximum of the old values over that node and its neighbors across
active links. -/
theorem C10_local_range (g : RasterGrid) (D dt : ℚ) (z qs : List ℚ)
    (hdx : 0 < g.dx) (hD : 0 ≤ D) (hdt : 0 ≤ dt)
    (hlen : qs.length = g.links.length) (hqs : qsInactiveZero g qs) {n : ℕ}
    (hn : n < g.N) (hcore : g.statusAt n = NodeStatus.core)
    (hstab : dt * D * ((g.activeNeighbors n).length : ℚ) ≤ g.dx) :
    localMinAt g z n ≤ (diffusionStep g D dt (z, qs)).1.getD n 0 ∧
      (diffusionStep g D dt (z, qs)).1.getD n 0 ≤ localMaxAt g z n :=
  step_core_within_local_range g D dt z qs hdx hD hdt hlen hqs hn hcore hstab

set_option maxRecDepth 100000 in
/-- Witness for the amended C10 on the 5 × 5 closed grid at the
perturbed center node with diffusivity 1 and dt = 1/5. -/
theorem C10_local_range_witness :
    (0 < g5.dx ∧ (0:ℚ) ≤ 1 ∧ (0:ℚ) ≤ 1/5 ∧ (zerosQs g5).length = g5.links.length ∧
      qsInactiveZero g5 (zerosQs g5) ∧ 12 < g5.N ∧
      g5.statusAt 12 = NodeStatus.core ∧
      1/5 * 1 * ((g5.activeNeighbors 12).length : ℚ) ≤ g5.dx) ∧
      (localMinAt g5 (deltaField g5 12 1 0) 12 ≤
        (diffusionStep g5 1 (1/5) (deltaField g5 12 1 0, zerosQs g5)).1.getD 12 0 ∧
      (diffusionStep g5 1 (1/5) (deltaField g5 12 1 0, zerosQs g5)).1.getD 12 0 ≤
        localMaxAt g5 (deltaField g5 12 1 0) 12) :=
  ⟨⟨by with_unfolding_all decide, by norm_num, by norm_num, zerosQs_length g5,
      qsInactiveZero_zerosQs g5, by decide, by decide,
      by with_unfolding_all decide⟩,
    C10_local_range g5 1 (1/5) (deltaField g5 12 1 0) (zerosQs g5)
      (by with_unfolding_all decide) (by norm_num) (by norm_num)
      (zerosQs_length g5) (qsInactiveZero_zerosQs g5) (by decide) (by decide)
      (by with_unfolding_all decide)⟩

/-- A field on the 5 × 5 grid with a single strict interior local
maximum 10 at node 12, a value 9 on its neighbor node 11, and 0
elsewhere; the terrain decreases monotonically away from node 12. -/
def c7Field : List ℚ :=
  (List.range g5.N).map (fun n => if n = 12 then 10 else if n = 11 then 9 else 0)

set_option maxRecDepth 200000 in
/-- C7 as stated is false: on the all-closed 5 × 5 unit grid with
diffusivity 1 and dt = 0.2 × spacing² / diffusivity (a stable step),
node 12 is the unique strict interior local maximum of `c7Field` and
every value it dominates its active neighbors, yet its immediate
neighbor node 11 strictly DECREASES after one step (it loses more to
its own lower neighbors than it gains from the maximum). -/
theorem C7_counterexample :
    ((1/5 : ℚ) = 1/5 * g5.dx * g5.dx / 1) ∧
      (∀ n, n < g5.N → g5.statusAt n ≠ NodeStatus.fixedValue) ∧
      g5.statusAt 12 = NodeStatus.core ∧
      (∀ w ∈ g5.activeNeighbors 12, c7Field.getD w 0 < c7Field.getD 12 0) ∧
      (∀ n, n < g5.N → g5.statusAt n = NodeStatus.core → n ≠ 12 →
        ¬(∀ w ∈ g5.activeNeighbors n, c7Field.getD w 0 < c7Field.getD n 0)) ∧
      11 ∈ g5.activeNeighbors 12 ∧
      (diffusionStep g5 1 (1/5) (c7Field, zerosQs g5)).1.getD 11 0 <
        c7Field.getD 11 0 := by
  with_unfolding_all decide

/-- C7 (amended): restricted to a field that is flat except for the
single interior maximum (value h at core node m, value c < h
everywhere else), one stable application of the stepper strictly
decreases the maximum node's value and strictly increases the value of
every core neighbor across an active link. -/
theorem C7_monotone_smoothing (g : RasterGrid) (D dt c h : ℚ) (m w : ℕ)
    (qs : List ℚ) (hdx : 0 < g.dx) (hD : 0 < D) (hdt : 0 < dt)
    (hstab : dt ≤ 1/5 * g.dx * g.dx / D)
    (hm : m < g.N) (hcore : g.statusAt m = NodeStatus.core) (hch : c < h)
    (hlen : qs.length = g.links.length) (hqs : qsInactiveZero g qs)
    (hw : w ∈ g.activeNeighbors m) (hwcore : g.statusAt w = NodeStatus.core) :
    (diffusionStep g D dt (deltaField g m h c, qs)).1.getD m 0 < h ∧
      c < (diffusionStep g D dt (deltaField g m h c, qs)).1.getD w 0 := by
  obtain ⟨hwm, hwN⟩ := activeNeighbors_mem_spec g hw
  have hmem := activeNeighbors_symm g hw
  have hKpos : 0 < D * (h - c) / g.dx := div_pos (mul_pos hD (sub_pos.2 hch)) hdx
  constructor
  · rw [step_core_getD g D dt _ qs hlen hqs hm hcore]
    rw [deltaField_getD, if_pos hm, if_pos rfl]
    have hterms : ∀ w' ∈ g.activeNeighbors m,
        D * (h - (deltaField g m h c).getD w' 0) / g.dx =
          D * (h - c) / g.dx := by
      intro w' hw'
      obtain ⟨hw'm, hw'N⟩ := activeNeighbors_mem_spec g hw'
      rw [deltaField_getD, if_pos hw'N, if_neg hw'm]
    rw [List.map_congr_left hterms, List.map_const', List.sum_replicate]
    apply sub_lt_self
    have hlen1 : 0 < (g.activeNeighbors m).length := List.length_pos_of_mem hw
    have hcast : (0 : ℚ) < ((g.activeNeighbors m).length : ℚ) := by
      exact_mod_cast hlen1
    rw [nsmul_eq_mul]
    exact mul_pos hdt (mul_pos hcast hKpos)
  · rw [step_core_getD g D dt _ qs hlen hqs hwN hwcore]
    rw [deltaField_getD, if_pos hwN, if_neg hwm]
    have hsum : ((g.activeNeighbors w).map
        (fun u => D * (c - (deltaField g m h c).getD u 0) / g.dx)).sum < 0 := by
      refine sum_neg_of_nonpos_of_mem_neg _ ?_ (List.mem_map_of_mem _ hmem) ?_
      · intro x hx
        rw [List.mem_map] at hx
        obtain ⟨u, hu, rfl⟩ := hx
        obtain ⟨huw, huN⟩ := activeNeighbors_mem_spec g hu
        rw [deltaField_getD, if_pos huN]
        by_cases hum : u = m
        · rw [if_pos hum]
          exact le_of_lt (div_neg_of_neg_of_pos
            (mul_neg_of_pos_of_neg hD (sub_neg.2 hch)) hdx)
        · rw [if_neg hum]
          simp
      · rw [deltaField_getD, if_pos hm, if_pos rfl]
        exact div_neg_of_neg_of_pos (mul_neg_of_pos_of_neg hD (sub_neg.2 hch)) hdx
    have := mul_neg_of_pos_of_neg hdt hsum
    linarith

set_option maxRecDepth 200000 in
/-- Witness for the amended C7 on the 5 × 5 closed grid: flat 0 field
with maximum 10 at node 12, diffusivity 1, dt = 1/5, neighbor 11. -/
theorem C7_monotone_smoothing_witness :
    (0 < g5.dx ∧ (0:ℚ) < 1 ∧ (0:ℚ) < 1/5 ∧ (1/5 : ℚ) ≤ 1/5 * g5.dx * g5.dx / 1 ∧
      12 < g5.N ∧ g5.statusAt 12 = NodeStatus.core ∧ (0:ℚ) < 10 ∧
      (zerosQs g5).length = g5.links.length ∧ qsInactiveZero g5 (zerosQs g5) ∧
      11 ∈ g5.activeNeighbors 12 ∧ g5.statusAt 11 = NodeStatus.core) ∧
      ((diffusionStep g5 1 (1/5) (deltaField g5 12 10 0, zerosQs g5)).1.getD 12 0 < 10 ∧
        0 < (diffusionStep g5 1 (1/5) (deltaField g5 12 10 0, zerosQs g5)).1.getD 11 0) :=
  ⟨⟨by with_unfolding_all decide, by norm_num, by norm_num,
      by with_unfolding_all decide, by decide, by decide, by norm_num,
      zerosQs_length g5, qsInactiveZero_zerosQs g5, by decide, by decide⟩,
    C7_monotone_smoothing g5 1 (1/5) 0 10 12 11 (zerosQs g5)
      (by with_unfolding_all decide) (by norm_num) (by norm_num)
      (by with_unfolding_all decide) (by decide) (by decide) (by norm_num)
      (zerosQs_length g5) (qsInactiveZero_zerosQs g5) (by decide) (by decide)⟩

/-- The value pattern of the symmetric evolution on the 5 × 5 all-closed
grid: `a` at the center node 12, `b` at its four edge neighbors, `c` at
the four interior corners, 0 on the closed boundary ring. -/
def symVal (a b c : ℚ) (n : ℕ) : ℚ :=
  if n = 12 then a
  else if n = 7 ∨ n = 11 ∨ n = 13 ∨ n = 17 then b
  else if n = 6 ∨ n = 8 ∨ n = 16 ∨ n = 18 then c
  else 0

/-- The symmetric field on the 5 × 5 all-closed grid. -/
def symState (a b c : ℚ) : List ℚ := (List.range g5.N).map (symVal a b c)

theorem g5_dx : g5.dx = 1 := rfl

theorem symState_getD (a b c : ℚ) (i : ℕ) :
    (symState a b c).getD i 0 = if i < 25 then symVal a b c i else 0 :=
  getD_range_map g5.N (symVal a b c) i

set_option maxRecDepth 200000 in
/-- One unit-diffusivity, unit-dt step of the stepper on the symmetric
field follows the three-variable recursion of the symmetric mode. -/
theorem c5SymStep (a b c : ℚ) (qs : List ℚ) (hlen : qs.length = g5.links.length)
    (hqs : qsInactiveZero g5 qs) :
    (diffusionStep g5 1 1 (symState a b c, qs)).1 =
      symState (a - 4 * (a - b)) (b - ((b - a) + 2 * (b - c))) (c - 2 * (c - b)) := by
  apply List.ext_getElem
  · simp [diffusionStep, symState]
  · intro i h1 h2
    have hiN : i < 25 := by simpa [diffusionStep] using h1
    rw [← List.getD_eq_getElem _ 0 h1, ← List.getD_eq_getElem _ 0 h2]
    interval_cases i
    · rw [diffusionStep_fst_getD, if_pos (by decide), if_neg (by decide)]
      simp only [symState_getD]
      norm_num [symVal]
    · rw [diffusionStep_fst_getD, if_pos (by decide), if_neg (by decide)]
      simp only [symState_getD]
      norm_num [symVal]
    · rw [diffusionStep_fst_getD, if_pos (by decide), if_neg (by decide)]
      simp only [symState_getD]
      norm_num [symVal]
    · rw [diffusionStep_fst_getD, if_pos (by decide), if_neg (by decide)]
      simp only [symState_getD]
      norm_num [symVal]
    · rw [diffusionStep_fst_getD, if_pos (by decide), if_neg (by decide)]
      simp only [symState_getD]
      norm_num [symVal]
    · rw [diffusionStep_fst_getD, if_pos (by decide), if_neg (by decide)]
      simp only [symState_getD]
      norm_num [symVal]
    · rw [step_core_getD g5 1 1 _ qs hlen hqs (by decide) (by decide),
        show g5.activeNeighbors 6 = [7, 11] from by decide]
      simp only [symState_getD, g5_dx, List.map_cons, List.map_nil, List.sum_cons,
        List.sum_nil]
      norm_num [symVal]
      ring
    · rw [step_core_getD g5 1 1 _ qs hlen hqs (by decide) (by decide),
        show g5.activeNeighbors 7 = [6, 8, 12] from by decide]
      simp only [symState_getD, g5_dx, List.map_cons, List.map_nil, List.sum_cons,
        List.sum_nil]
      norm_num [symVal]
      ring
    · rw [step_core_getD g5 1 1 _ qs hlen hqs (by decide) (by decide),
        show g5.activeNeighbors 8 = [7, 13] from by decide]
      simp only [symState_getD, g5_dx, List.map_cons, List.map_nil, List.sum_cons,
        List.sum_nil]
      norm_num [symVal]
      ring
    · rw [diffusionStep_fst_getD, if_pos (by decide), if_neg (by decide)]
      simp only [symState_getD]
      norm_num [symVal]
    · rw [diffusionStep_fst_getD, if_pos (by decide), if_neg (by decide)]
      simp only [symState_getD]
      norm_num [symVal]
    · rw [step_core_getD g5 1 1 _ qs hlen hqs (by decide) (by decide),
        show g5.activeNeighbors 11 = [6, 12, 16] from by decide]
      simp only [symState_getD, g5_dx, List.map_cons, List.map_nil, List.sum_cons,
        List.sum_nil]
      norm_num [symVal]
      ring
    · rw [step_core_getD g5 1 1 _ qs hlen hqs (by decide) (by decide),
        show g5.activeNeighbors 12 = [7, 11, 13, 17] from by decide]
      simp only [symState_getD, g5_dx, List.map_cons, List.map_nil, List.sum_cons,
        List.sum_nil]
      norm_num [symVal]
      ring
    · rw [step_core_getD g5 1 1 _ qs hlen hqs (by decide) (by decide),
        show g5.activeNeighbors 13 = [8, 12, 18] from by decide]
      simp only [symState_getD, g5_dx, List.map_cons, List.map_nil, List.sum_cons,
        List.sum_nil]
      norm_num [symVal]
      ring
    · rw [diffusionStep_fst_getD, if_pos (by decide), if_neg (by decide)]
      simp only [symState_getD]
      norm_num [symVal]
    · rw [diffusionStep_fst_getD, if_pos (by decide), if_neg (by decide)]
      simp only [symState_getD]
      norm_num [symVal]
    · rw [step_core_getD g5 1 1 _ qs hlen hqs (by decide) (by decide),
        show g5.activeNeighbors 16 = [11, 17] from by decide]
      simp only [symState_getD, g5_dx, List.map_cons, List.map_nil, List.sum_cons,
        List.sum_nil]
      norm_num [symVal]
      ring
    · rw [step_core_getD g5 1 1 _ qs hlen hqs (by decide) (by decide),
        show g5.activeNeighbors 17 = [12, 16, 18] from by decide]
      simp only [symState_getD, g5_dx, List.map_cons, List.map_nil, List.sum_cons,
        List.sum_nil]
      norm_num [symVal]
      ring
    · rw [step_core_getD g5 1 1 _ qs hlen hqs (by decide) (by decide),
        show g5.activeNeighbors 18 = [13, 17] from by decide]
      simp only [symState_getD, g5_dx, List.map_cons, List.map_nil, List.sum_cons,
        List.sum_nil]
      norm_num [symVal]
      ring
    · rw [diffusionStep_fst_getD, if_pos (by decide), if_neg (by decide)]
      simp only [symState_getD]
      norm_num [symVal]
    · rw [diffusionStep_fst_getD, if_pos (by decide), if_neg (by decide)]
      simp only [symState_getD]
      norm_num [symVal]
    · rw [diffusionStep_fst_getD, if_pos (by decide), if_neg (by decide)]
      simp only [symState_getD]
      norm_num [symVal]
    · rw [diffusionStep_fst_getD, if_pos (by decide), if_neg (by decide)]
      simp only [symState_getD]
      norm_num [symVal]
    · rw [diffusionStep_fst_getD, if_pos (by decide), if_neg (by decide)]
      simp only [symState_getD]
      norm_num [symVal]
    · rw [diffusionStep_fst_getD, if_pos (by decide), if_neg (by decide)]
      simp only [symState_getD]
      norm_num [symVal]

/-- The three-variable recursion followed by the symmetric mode under
the unstable step (diffusivity 1, dt = 1): center value, edge-neighbor
value, corner value. -/
def c5Triple : ℕ → ℚ × ℚ × ℚ
  | 0 => (1, 0, 0)
  | k + 1 =>
    let t := c5Triple k
    (t.1 - 4 * (t.1 - t.2.1),
     t.2.1 - ((t.2.1 - t.1) + 2 * (t.2.1 - t.2.2)),
     t.2.2 - 2 * (t.2.2 - t.2.1))

theorem c5Triple_succ (k : ℕ) :
    c5Triple (k + 1) =
      ((c5Triple k).1 - 4 * ((c5Triple k).1 - (c5Triple k).2.1),
       (c5Triple k).2.1 - (((c5Triple k).2.1 - (c5Triple k).1) +
         2 * ((c5Triple k).2.1 - (c5Triple k).2.2)),
       (c5Triple k).2.2 - 2 * ((c5Triple k).2.2 - (c5Triple k).2.1)) := rfl

theorem c5_unstable_iter (k : ℕ) :
    (iterateStep g5 1 1 k (symState 1 0 0, zerosQs g5)).1 =
        symState (c5Triple k).1 (c5Triple k).2.1 (c5Triple k).2.2 ∧
      qsInactiveZero g5 ((iterateStep g5 1 1 k (symState 1 0 0, zerosQs g5)).2) ∧
      ((iterateStep g5 1 1 k (symState 1 0 0, zerosQs g5)).2).length =
        g5.links.length := by
  induction k with
  | zero => exact ⟨rfl, qsInactiveZero_zerosQs g5, zerosQs_length g5⟩
  | succ k ih =>
    obtain ⟨hz, hq, hl⟩ := ih
    rw [iterateStep_succ_right]
    have hstep := c5SymStep (c5Triple k).1 (c5Triple k).2.1 (c5Triple k).2.2
      ((iterateStep g5 1 1 k (symState 1 0 0, zerosQs g5)).2) hl hq
    rw [← hz] at hstep
    refine ⟨?_, ?_, ?_⟩
    · rw [c5Triple_succ]
      exact hstep
    · have hsnd : (diffusionStep g5 1 1
          (iterateStep g5 1 1 k (symState 1 0 0, zerosQs g5))).2 =
          stepQs g5 1 ((iterateStep g5 1 1 k (symState 1 0 0, zerosQs g5)).1)
            ((iterateStep g5 1 1 k (symState 1 0 0, zerosQs g5)).2) := rfl
      rw [hsnd, stepQs_eq_linkFlux g5 1 _ _ hl hq]
      exact qsInactiveZero_linkFlux g5 1 _
    · have hsnd : (diffusionStep g5 1 1
          (iterateStep g5 1 1 k (symState 1 0 0, zerosQs g5))).2 =
          stepQs g5 1 ((iterateStep g5 1 1 k (symState 1 0 0, zerosQs g5)).1)
            ((iterateStep g5 1 1 k (symState 1 0 0, zerosQs g5)).2) := rfl
      rw [hsnd, stepQs_eq_linkFlux g5 1 _ _ hl hq]
      exact linkFlux_length g5 1 _

theorem symState_mem_center (a b c : ℚ) : a ∈ symState a b c := by
  rw [symState, List.mem_map]
  exact ⟨12, by simp [g5, RasterGrid.N, closedPerimeterStatus], by simp [symVal]⟩

theorem symState_entry_cases {a b c x : ℚ} (hx : x ∈ symState a b c) :
    x = a ∨ x = b ∨ x = c ∨ x = 0 := by
  rw [symState, List.mem_map] at hx
  obtain ⟨n, _, rfl⟩ := hx
  rw [symVal]
  split_ifs
  · exact Or.inl rfl
  · exact Or.inr (Or.inl rfl)
  · exact Or.inr (Or.inr (Or.inl rfl))
  · exact Or.inr (Or.inr (Or.inr rfl))

theorem maxAbs_symState_le (a b c : ℚ) :
    maxAbs (symState a b c) ≤ max |a| (max |b| |c|) := by
  apply maxAbs_le
  · exact le_trans (abs_nonneg a) (le_max_left _ _)
  · intro x hx
    rcases symState_entry_cases hx with rfl | rfl | rfl | rfl
    · exact le_max_left _ _
    · exact le_trans (le_max_left _ _) (le_max_right _ _)
    · exact le_trans (le_max_right _ _) (le_max_right _ _)
    · simpa using le_trans (abs_nonneg a) (le_max_left _ _)

/-- Invariant for the stable run: values within [0, 1], correct lengths,
flux zero on inactive links. -/
def c5StableInv (s : List ℚ × List ℚ) : Prop :=
  (∀ x ∈ s.1, 0 ≤ x ∧ x ≤ 1) ∧ s.1.length = g5.N ∧
    qsInactiveZero g5 s.2 ∧ s.2.length = g5.links.length

set_option maxRecDepth 200000 in
theorem c5_stable_bound (k : ℕ) :
    maxAbs ((iterateStep g5 1 (1/5) k (deltaField g5 12 1 0, zerosQs g5)).1) ≤ 1 := by
  have hconv : ∀ n, n < g5.N → g5.statusAt n = NodeStatus.core →
      (1/5 : ℚ) * 1 * ((g5.activeNeighbors n).length : ℚ) ≤ g5.dx := by
    with_unfolding_all decide
  have hstep : ∀ s, c5StableInv s → c5StableInv (diffusionStep g5 1 (1/5) s) := by
    intro s hs
    obtain ⟨hb, hzl, hq, hql⟩ := hs
    have hsnd : (diffusionStep g5 1 (1/5) s).2 = stepQs g5 1 s.1 s.2 := rfl
    refine ⟨?_, diffusionStep_fst_length g5 1 (1/5) s, ?_, ?_⟩
    · exact step_preserves_global_bounds g5 1 (1/5) s.1 s.2 0 1
        (by with_unfolding_all decide) (by norm_num) (by norm_num) hql hq hzl hconv hb
    · rw [hsnd, stepQs_eq_linkFlux g5 1 _ _ hql hq]
      exact qsInactiveZero_linkFlux g5 1 _
    · rw [hsnd, stepQs_eq_linkFlux g5 1 _ _ hql hq]
      exact linkFlux_length g5 1 _
  have hinit : c5StableInv (deltaField g5 12 1 0, zerosQs g5) :=
    ⟨by with_unfolding_all decide, by decide, qsInactiveZero_zerosQs g5,
      zerosQs_length g5⟩
  have h := iterate_inv g5 1 (1/5) c5StableInv hstep k _ hinit
  refine maxAbs_le _ 1 (by norm_num) ?_
  intro x hx
  have hb := h.1 x hx
  exact abs_le.2 ⟨by linarith [hb.1], hb.2⟩

set_option maxRecDepth 1000000 in
/-- C5: on the 5 × 5 all-closed unit grid with diffusivity 1 and a flat
field with a single perturbed interior node, the step size 1/5 equals
the stability bound 0.2 × spacing² / diffusivity and the perturbation's
magnitude never exceeds its initial value over any number of steps
(50 included); the step size 1 equals 5 × that bound and the
perturbation's magnitude strictly grows at every one of the 50
applications, exceeding 10⁶ after 50 steps. -/
theorem C5_stability_boundary :
    ((1/5 : ℚ) = 1/5 * g5.dx * g5.dx / 1) ∧
    ((1 : ℚ) = 5 * (1/5 * g5.dx * g5.dx / 1)) ∧
    (∀ k, maxAbs ((iterateStep g5 1 (1/5) k (deltaField g5 12 1 0, zerosQs g5)).1) ≤
        maxAbs (deltaField g5 12 1 0)) ∧
    (∀ k, k < 50 →
      maxAbs ((iterateStep g5 1 1 k (deltaField g5 12 1 0, zerosQs g5)).1) <
        maxAbs ((iterateStep g5 1 1 (k + 1) (deltaField g5 12 1 0, zerosQs g5)).1)) ∧
    10 ^ 6 < maxAbs ((iterateStep g5 1 1 50 (deltaField g5 12 1 0, zerosQs g5)).1) := by
  have hsym : symState 1 0 0 = deltaField g5 12 1 0 := by with_unfolding_all decide
  have hmax0 : maxAbs (deltaField g5 12 1 0) = 1 := by with_unfolding_all decide
  have hgrow : ∀ k, k < 50 →
      max |(c5Triple k).1| (max |(c5Triple k).2.1| |(c5Triple k).2.2|) <
        |(c5Triple (k + 1)).1| := by
    with_unfolding_all decide
  have hbig : (10 : ℚ) ^ 6 < |(c5Triple 50).1| := by
    with_unfolding_all decide
  refine ⟨by rw [g5_dx]; norm_num, by rw [g5_dx]; norm_num, ?_, ?_, ?_⟩
  · intro k
    rw [hmax0]
    exact c5_stable_bound k
  · intro k hk
    rw [← hsym, (c5_unstable_iter k).1, (c5_unstable_iter (k + 1)).1]
    calc maxAbs (symState (c5Triple k).1 (c5Triple k).2.1 (c5Triple k).2.2)
        ≤ max |(c5Triple k).1| (max |(c5Triple k).2.1| |(c5Triple k).2.2|) :=
          maxAbs_symState_le _ _ _
      _ < |(c5Triple (k + 1)).1| := hgrow k hk
      _ ≤ maxAbs (symState (c5Triple (k + 1)).1 (c5Triple (k + 1)).2.1
            (c5Triple (k + 1)).2.2) :=
          abs_le_maxAbs_of_mem (symState_mem_center _ _ _)
  · rw [← hsym, (c5_unstable_iter 50).1]
    exact lt_of_lt_of_le hbig (abs_le_maxAbs_of_mem (symState_mem_center _ _ _))

end Claims
